import Mathlib

/-!
Shallow embedding of the `kahler` discrete-exterior-calculus package
(`skeleton.pyx`, `simplicial_complex.pyx`, `grid_utils.pyx`) and proofs
about it.

Conventions used throughout:
* a simplex is a `List ℕ` of vertex indices (a numpy row / Python tuple);
* a Python `frozenset` of vertex indices is a `Finset ℕ`;
* sparse integer matrices (scipy CSR) are kept as their row lists of
  `(column, value)` pairs; an entry of the abstract matrix is the sum of
  the stored values at that position (scipy's semantics for duplicate
  coordinates);
* skeleta are indexed by codimension: level `0` is the top-dimensional
  skeleton, level `k+1` is produced from level `k` by `compute_exterior`.
-/

namespace Kahler

/-- Faces of a simplex: `simplex[:j] + simplex[j+1:]` for `j = 0..len-1`,
in deletion order (source: `_Skeleton.compute_exterior`, inner loop). -/
def faces (s : List ℕ) : List (List ℕ) :=
  (List.range s.length).map fun j => s.take j ++ s.drop (j + 1)

/-- Index of the first occurrence of `f` in a list of face identities
(the dense index a Python dict built by enumeration order would return). -/
def idxIn (f : Finset ℕ) : List (Finset ℕ) → ℕ
  | [] => 0
  | g :: l => if f = g then 0 else idxIn f l + 1

/-- State of the `compute_exterior` loop: `seen` is the list of face
identities in first-seen order (`simplex_to_index` maps identity `f` to
`idxIn f seen`), `simplices` the representative face lists in index order,
`rows` the CSR rows built so far (`(column, datum)` pairs). -/
structure ExtState where
  seen : List (Finset ℕ)
  simplices : List (List ℕ)
  rows : List (List (ℕ × ℤ))

/-- Inner loop of `_Skeleton.compute_exterior`: process the faces of one
higher simplex, starting at deletion position `j`; returns the updated
state and this row's `(column, (-1)^j)` entries. -/
def processFaces (st : ExtState) : List (List ℕ) → ℕ → ExtState × List (ℕ × ℤ)
  | [], _ => (st, [])
  | f :: fs, j =>
    let sf := f.toFinset
    if sf ∈ st.seen then
      let r := processFaces st fs (j + 1)
      (r.1, (idxIn sf st.seen, (-1) ^ j) :: r.2)
    else
      let r := processFaces ⟨st.seen ++ [sf], st.simplices ++ [f], st.rows⟩ fs (j + 1)
      (r.1, (st.seen.length, (-1) ^ j) :: r.2)

/-- Outer loop body of `_Skeleton.compute_exterior`: process one higher
simplex and append its CSR row. -/
def processSimplex (st : ExtState) (s : List ℕ) : ExtState :=
  let r := processFaces st (faces s) 0
  ⟨r.1.seen, r.1.simplices, r.1.rows ++ [r.2]⟩

/-- `_Skeleton.compute_exterior`: fold over the next-higher skeleton's
simplices.  `seen.length` is `num_simplices`, `rows` together with
`seen.length` columns is `exterior_derivative`. -/
def computeExterior (old : List (List ℕ)) : ExtState :=
  old.foldl processSimplex ⟨[], [], []⟩

/-- Entry of the assembled sparse matrix at row `r`, column `c`:
the sum of stored values there (scipy sums duplicate coordinates). -/
def entry (st : ExtState) (r c : ℕ) : ℤ :=
  (((st.rows.getD r []).filter fun p => p.1 = c).map fun p => p.2).sum

/-- Column sum of absolute values of the stored entries
(`abs(self.exterior_derivative).sum(axis=0)` in `Skeleton.__getattr__`). -/
def colAbsSum (st : ExtState) (c : ℕ) : ℕ :=
  (st.rows.map fun row => ((row.filter fun p => p.1 = c).map fun p => p.2.natAbs).sum).sum

/-- Sum of absolute stored values in row `r`, column `c`. -/
def rowAbsAt (st : ExtState) (r c : ℕ) : ℕ :=
  (((st.rows.getD r []).filter fun p => p.1 = c).map fun p => p.2.natAbs).sum

/-- Column sum of absolute values restricted to the rows listed in `b`
(`abs(self.exterior_derivative[old_boundary]).sum(axis=0)`). -/
def boundaryColSum (st : ExtState) (b : List ℕ) (c : ℕ) : ℕ :=
  (b.map fun r => rowAbsAt st r c).sum

/-! Declarative (specification-side) descriptions used to state what the
`compute_exterior` fold produces. -/

/-- All face identities of a simplex, in deletion order. -/
def faceIds (s : List ℕ) : List (Finset ℕ) := (faces s).map List.toFinset

/-- All face identities of a list of simplices, row-major scan order. -/
def allIds (old : List (List ℕ)) : List (Finset ℕ) := old.flatMap faceIds

/-- First-occurrence deduplication: keeps the first occurrence of every
element, in scan order. -/
def firstDedup : List (Finset ℕ) → List (Finset ℕ)
  | [] => []
  | a :: l => a :: firstDedup (l.filter fun b => b ≠ a)
termination_by l => l.length
decreasing_by
  simp only [List.length_cons]
  exact Nat.lt_succ_of_le (List.length_filter_le _ _)

/-- First-occurrence deduplication with an accumulator of already-seen
identities (the evolution of the fold's `seen` component). -/
def fdAcc (seen : List (Finset ℕ)) : List (Finset ℕ) → List (Finset ℕ)
  | [] => seen
  | f :: l => if f ∈ seen then fdAcc seen l else fdAcc (seen ++ [f]) l

/-- Declarative description of one CSR row: the entry for the face at
deletion position `j` is `(-1)^j`, in the column that is the dense index
of the face's identity in the final first-seen list `S`. -/
def entriesSpec (S : List (Finset ℕ)) : List (List ℕ) → ℕ → List (ℕ × ℤ)
  | [], _ => []
  | f :: fs, j => (idxIn f.toFinset S, (-1) ^ j) :: entriesSpec S fs (j + 1)

/-! The vertex-identification ("stitching") collaborator, from
`grid_utils.pyx`.  `_stitch` follows identification chains to a fixed
point; on an acyclic map a chain visits each key at most once, so
`length + 1` lookups always reach the fixed point (the Python loop does
not terminate on cyclic maps, which the spec declares undefined). -/

/-- Chain-following with explicit fuel (`_stitch` in `grid_utils.pyx`). -/
def stitchAux : ℕ → List (ℕ × ℕ) → ℕ → ℕ
  | 0, _, i => i
  | fuel + 1, m, i =>
    match m.lookup i with
    | none => i
    | some j => stitchAux fuel m j

/-- `_stitch(index, stitches)`: canonical representative of a vertex. -/
def stitchV (m : List (ℕ × ℕ)) (i : ℕ) : ℕ := stitchAux (m.length + 1) m i

/-- `stitch(simplex, stitches)`: canonicalize every vertex of a simplex. -/
def stitchSimplex (m : List (ℕ × ℕ)) (s : List ℕ) : List ℕ := s.map (stitchV m)

/-! The `SimplicialComplex` constructor (`simplicial_complex.pyx`). -/

/-- `simplices.sort()` on a 2-D numpy array sorts along the last axis:
each row's vertex indices are sorted ascending, the row order is kept. -/
def npSort (l : List (List ℕ)) : List (List ℕ) :=
  l.map (List.insertionSort (· ≤ ·))

/-- Modelled from the spec: the sentence `simplices are lexicographically
sorted on input (canonicalizes row order, not vertex order within a row)`
— rows reordered lexicographically, each row kept as given.  Stated only
to be compared with `npSort`, the embedding of the source's
`simplices.sort()`. -/
def lexLe : List ℕ → List ℕ → Bool
  | [], _ => true
  | _ :: _, [] => false
  | a :: l, b :: m => if a < b then true else if b < a then false else lexLe l m

/-- Modelled from the spec (see `lexLe`): lexicographic sort of the rows,
leaving the vertex order inside each row unchanged. -/
def specLexRowSort (l : List (List ℕ)) : List (List ℕ) :=
  l.insertionSort fun a b => lexLe a b = true

/-- Top-dimensional skeleton's stitched `simplices` as assigned in
`SimplicialComplex.__init__`: rows sorted in place (numpy, along the last
axis), then each row stitched. -/
def constructTop (simplices : List (List ℕ)) (stitches : List (ℕ × ℕ)) : List (List ℕ) :=
  (npSort simplices).map (stitchSimplex stitches)

/-- `num_simplices` of the top skeleton (`simplices.shape[0]`). -/
def topNum (simplices : List (List ℕ)) : ℕ := simplices.length

/-- `boundary` of the top skeleton as assigned in `__init__` (empty). -/
def topBoundary : List ℕ := []

/-- `interior` of the top skeleton as assigned in `__init__`
(`arange(num_simplices)`). -/
def topInterior (simplices : List (List ℕ)) : List ℕ :=
  List.range (topNum simplices)

/-- `exterior_derivative` of the top skeleton as assigned in `__init__`:
`csr_matrix((1, num_simplices))`, one row with no stored entries. -/
def topEdRows : List (List (ℕ × ℤ)) := [[]]

/-- Entry of a CSR row list at `(r, c)`. -/
def entryAt (rows : List (List (ℕ × ℤ))) (r c : ℕ) : ℤ :=
  (((rows.getD r []).filter fun p => p.1 = c).map fun p => p.2).sum

/-! The tower of skeleta, indexed by codimension `k` (dimension
`complex_dimension - k`): level `0` holds the stitched top simplices,
level `k+1` is produced by `compute_exterior` from level `k`. -/

/-- `simplices` of the codimension-`k` skeleton. -/
def Sk (top : List (List ℕ)) : ℕ → List (List ℕ)
  | 0 => top
  | k + 1 => (computeExterior (Sk top k)).simplices

/-- `num_simplices` of the codimension-`k` skeleton. -/
def nSimp (top : List (List ℕ)) (k : ℕ) : ℕ := (Sk top k).length

/-- `compute_exterior` output stored at codimension `k+1` (rows indexed by
codimension-`k` simplices, columns by codimension-`k+1` simplices). -/
def Ext (top : List (List ℕ)) (k : ℕ) : ExtState := computeExterior (Sk top k)

/-- `boundary` of the codimension-`k` skeleton, as computed by
`Skeleton.__getattr__`: empty at the top; at codimension 1 the columns of
the exterior derivative with odd absolute column sum; below that the
columns with a nonzero absolute sum over the rows listed in the
next-higher boundary, or empty if that boundary is empty. -/
def Bk (top : List (List ℕ)) : ℕ → List ℕ
  | 0 => []
  | 1 => (List.range (nSimp top 1)).filter fun c => decide (colAbsSum (Ext top 0) c % 2 = 1)
  | k + 2 =>
    if Bk top (k + 1) = [] then []
    else (List.range (nSimp top (k + 2))).filter fun c =>
      decide (boundaryColSum (Ext top (k + 1)) (Bk top (k + 1)) c ≠ 0)

/-- `interior` of the codimension-`k` skeleton:
`sorted(set(range(num_simplices)) - set(boundary))`. -/
def Ik (top : List (List ℕ)) (k : ℕ) : List ℕ :=
  (List.range (nSimp top k)).filter fun i => decide (i ∉ Bk top k)

/-- Entry `(r, c)` of the sparse product `a.dot(b)` (inner dimension =
`a`'s column count). -/
def matProdEntry (a b : ExtState) (r c : ℕ) : ℤ :=
  ((List.range a.seen.length).map fun m => entry a r m * entry b m c).sum

/-- Number of `(higher-simplex, deletion-position)` incidences whose face
identity is column `c`'s identity. -/
def incidenceCount (old : List (List ℕ)) (S : List (Finset ℕ)) (c : ℕ) : ℕ :=
  (old.map fun s => ((faces s).filter fun f => decide (f.toFinset = S.getD c ∅)).length).sum

/-! Dual-cell construction (`_SimplicialComplex.compute_dual_cells`).
The circumcenter collaborator (`compute_circumcenter`, cimported from the
`circumcenter` module, not part of the analysed sources) and the
stitched-index lookup `self[k].simplex_to_index[frozenset(stitch(...))]`
are abstracted as function parameters `cc` and `sIdx`; the recursion
never inspects their values.  The embedding is stated for `p < len(s)`
(in the source `p` is always at most the arity minus one). -/
def computeDualCells {P : Type} (cc : List ℕ → P) (sIdx : List ℕ → ℕ) :
    List ℕ → ℕ → List (List P × ℕ)
  | s, p =>
    if p = s.length - 1 then [([cc s], sIdx s)]
    else
      (faces s).attach.flatMap fun f =>
        (computeDualCells cc sIdx f.1 p).map fun pr => (pr.1 ++ [cc s], pr.2)
termination_by s => s.length
decreasing_by
  have h : ∃ a, a < s.length ∧ List.take a s ++ List.drop (a + 1) s = f.1 := by
    simpa [faces, List.mem_map, List.mem_range] using f.2
  obtain ⟨j, hjlt, hface⟩ := h
  have : f.1.length = s.length - 1 := by
    rw [← hface]
    simp [List.length_take, List.length_drop]
    omega
  omega

/-- Modelled from the spec: the sentence `recursively compute dual cells
of every one-vertex-deleted face of s at level p, and prepend
circumcenter(s) to each returned point chain, preserving the tagged
index` — identical to `computeDualCells` except that the outer
circumcenter is placed at the front of each chain instead of at the back
(the source runs `old_circumcenters + circumcenter`, which appends it).
Stated only to be compared with `computeDualCells`. -/
def specDualCellsPrepend {P : Type} (cc : List ℕ → P) (sIdx : List ℕ → ℕ) :
    List ℕ → ℕ → List (List P × ℕ)
  | s, p =>
    if p = s.length - 1 then [([cc s], sIdx s)]
    else
      (faces s).attach.flatMap fun f =>
        (specDualCellsPrepend cc sIdx f.1 p).map fun pr => (cc s :: pr.1, pr.2)
termination_by s => s.length
decreasing_by
  have h : ∃ a, a < s.length ∧ List.take a s ++ List.drop (a + 1) s = f.1 := by
    simpa [faces, List.mem_map, List.mem_range] using f.2
  obtain ⟨j, hjlt, hface⟩ := h
  have : f.1.length = s.length - 1 := by
    rw [← hface]
    simp [List.length_take, List.length_drop]
    omega
  omega

/-- Descending deletion paths: all chains `[s, f₁, f₂, …]` of `n`
successive one-vertex deletions starting at `s`, faces enumerated in
deletion order at every step. -/
def delSeqs : List ℕ → ℕ → List (List (List ℕ))
  | s, 0 => [[s]]
  | s, n + 1 => (faces s).flatMap fun f => (delSeqs f n).map fun path => s :: path

/-! Geometry.  The source arrays have numpy dtype `complex`; every claim
settled here lives in the real fragment (real points, real symmetric
metric, where `conj` is the identity and `conj().T` is the transpose), so
the point coordinates are modelled as `ℝ`. -/

/-- `_Skeleton.compute_primal_volumes` before the square root: the Gram
determinant `det(V · M · Vᵀ)` with `V = points[1:] - points[0]`, for a
`(d+1)`-point simplex embedded in `e` dimensions (rows as lists). -/
def primalVolSq (d e : ℕ) (pts : List (List ℝ)) (M : Matrix (Fin e) (Fin e) ℝ) : ℝ :=
  let V : Matrix (Fin d) (Fin e) ℝ :=
    Matrix.of fun i j => (pts.getD (i + 1) []).getD j 0 - (pts.getD 0 []).getD j 0
  (V * M * V.transpose).det

/-- `_Skeleton.compute_primal_volumes`: `sqrt(det(V·M·Vᵀ))`. -/
noncomputable def primalVolume (d e : ℕ) (pts : List (List ℝ))
    (M : Matrix (Fin e) (Fin e) ℝ) : ℝ :=
  Real.sqrt (primalVolSq d e pts M)

/-- The `primal_volumes` attribute for a skeleton of dimension `d ≥ 1`:
per unstitched representative, the volume is scattered (last writer wins)
into the slot `simplex_to_index[frozenset(stitch(rep))]`, then the array
is divided by `d!`. -/
noncomputable def primalVolumesArr (e : ℕ) (reps : List (List ℕ)) (verts : ℕ → List ℝ)
    (M : Matrix (Fin e) (Fin e) ℝ) (stitches : List (ℕ × ℕ))
    (seen : List (Finset ℕ)) (d : ℕ) : ℕ → ℝ := fun i =>
  (reps.foldl
      (fun (arr : ℕ → ℝ) rep =>
        Function.update arr (idxIn (stitchSimplex stitches rep).toFinset seen)
          (primalVolume d e (rep.map verts) M))
      fun _ => (0 : ℝ)) i / (Nat.factorial d : ℝ)

/-- The `primal_volumes` attribute at dimension 0: `ones(num_simplices)`,
the length argument records the array's shape. -/
def primalVolumesDim0 (_ : ℕ) : ℕ → ℝ := fun _ => 1

/-- `_SimplicialComplex.compute_barycentric_gradients`: with
`V = points[1:] - points[0]` and `V1 = V·M`, the gradient block is
`(V1·Vᴴ)⁻¹·V1` and the returned matrix stacks `-grads.sum(axis=0)` on
top of it. -/
noncomputable def barycentricGradients {n e : ℕ} (pts : Fin (n + 1) → Fin e → ℂ)
    (M : Matrix (Fin e) (Fin e) ℂ) : Matrix (Fin (n + 1)) (Fin e) ℂ :=
  let V : Matrix (Fin n) (Fin e) ℂ := Matrix.of fun i j => pts i.succ j - pts 0 j
  let V1 := V * M
  let grads := (V1 * V.conjTranspose)⁻¹ * V1
  Matrix.of (Fin.cases (fun j => -∑ i, grads i j) fun i j => grads i j)

/-! Attribute dispatch (`__getattr__` on both classes): a recognized name
computes and returns a value, any other name raises
`AttributeError(attr + " not found")` at once — modelled as `Except`. -/

/-- The lazily computable `Skeleton` attribute names, in dispatch order. -/
def skeletonFields : List String :=
  ["sharp", "boundary", "interior", "exterior_derivative", "simplices",
   "simplex_to_index", "num_simplices", "unstitched", "points", "metrics",
   "primal_volumes", "circumcenters", "dual_volumes", "star", "inverse_star",
   "codifferential", "laplace_beltrami", "laplace_derham"]

/-- `Skeleton.__getattr__`'s dispatch chain. -/
def skeletonGetattr (attr : String) : Except String Unit :=
  if attr = "sharp" then .ok ()
  else if attr = "boundary" then .ok ()
  else if attr = "interior" then .ok ()
  else if attr ∈ ["exterior_derivative", "simplices", "simplex_to_index", "num_simplices"] then .ok ()
  else if attr = "unstitched" then .ok ()
  else if attr = "points" then .ok ()
  else if attr = "metrics" then .ok ()
  else if attr = "primal_volumes" then .ok ()
  else if attr = "circumcenters" then .ok ()
  else if attr = "dual_volumes" then .ok ()
  else if attr = "star" then .ok ()
  else if attr = "inverse_star" then .ok ()
  else if attr = "codifferential" then .ok ()
  else if attr = "laplace_beltrami" then .ok ()
  else if attr = "laplace_derham" then .ok ()
  else .error (attr ++ " not found")

/-- `SimplicialComplex.__getattr__`'s dispatch chain. -/
def complexGetattr (attr : String) : Except String Unit :=
  if attr = "barycentric_gradients" then .ok ()
  else .error (attr ++ " not found")

/-! Concrete data for the single-triangle scenario: vertices
`(0,0), (1,0), (0,1)`, Euclidean (identity) metric, no stitching. -/

/-- Vertex coordinates of the triangle scenario. -/
def triVerts : ℕ → List ℝ
  | 0 => [0, 0]
  | 1 => [1, 0]
  | 2 => [0, 1]
  | _ => []

/-- Dimension-1 skeleton data of the triangle scenario. -/
def triE1 : ExtState := computeExterior (constructTop [[0, 1, 2]] [])

/-- Dimension-0 skeleton data of the triangle scenario. -/
def triE0 : ExtState := computeExterior triE1.simplices

/-- Primal-volume array of the triangle's dimension-2 skeleton (its one
unstitched representative is the input row itself). -/
noncomputable def triPV2 : ℕ → ℝ :=
  primalVolumesArr 2 [[0, 1, 2]] triVerts 1 []
    ((constructTop [[0, 1, 2]] []).map List.toFinset) 2

/-- Primal-volume array of the triangle's dimension-1 skeleton; the
unstitched representatives are the one-vertex-deleted faces of the input
row (`compute_unstitched` collects exactly these). -/
noncomputable def triPV1 : ℕ → ℝ :=
  primalVolumesArr 2 [[1, 2], [0, 2], [0, 1]] triVerts 1 [] triE1.seen 1

/-- Stitched top simplices of the claim-C1 failing input:
`SimplicialComplex([[0,1,2],[4,5,6]], stitches={4:2, 5:1, 6:3})`. -/
def pairTop : List (List ℕ) := constructTop [[0, 1, 2], [4, 5, 6]] [(4, 2), (5, 1), (6, 3)]

/-! Properties of the `compute_exterior` fold. -/

theorem idxIn_append_of_mem {f : Finset ℕ} {l : List (Finset ℕ)} (h : f ∈ l)
    (l' : List (Finset ℕ)) : idxIn f (l ++ l') = idxIn f l := by
  induction l with
  | nil => cases h
  | cons g t ih =>
    by_cases hfg : f = g
    · simp [idxIn, hfg]
    · have hm : f ∈ t := by
        rcases List.mem_cons.1 h with h1 | h1
        · exact absurd h1 hfg
        · exact h1
      simp [idxIn, hfg, ih hm]

theorem idxIn_append_new {f : Finset ℕ} {l : List (Finset ℕ)} (h : f ∉ l)
    (l' : List (Finset ℕ)) : idxIn f (l ++ f :: l') = l.length := by
  induction l with
  | nil => simp [idxIn]
  | cons g t ih =>
    have h1 : f ≠ g := by intro e; exact h (by simp [e])
    have h2 : f ∉ t := by intro e; exact h (by simp [e])
    simp [idxIn, h1, ih h2]

theorem fdAcc_eq (l : List (Finset ℕ)) : ∀ seen,
    fdAcc seen l = seen ++ firstDedup (l.filter fun b => b ∉ seen) := by
  induction l with
  | nil => intro seen; simp [fdAcc, firstDedup]
  | cons f l ih =>
    intro seen
    by_cases hf : f ∈ seen
    · have hfil : (List.filter (fun b => decide (b ∉ seen)) (f :: l))
          = List.filter (fun b => decide (b ∉ seen)) l := by
        simp [List.filter_cons, hf]
      simp only [fdAcc, if_pos hf, ih, hfil]
    · have hfil : (List.filter (fun b => decide (b ∉ seen)) (f :: l))
          = f :: List.filter (fun b => decide (b ∉ seen)) l := by
        simp [List.filter_cons, hf]
      have hcomp : List.filter (fun b => decide (b ∉ seen ++ [f])) l
          = List.filter (fun b => decide (b ≠ f))
              (List.filter (fun b => decide (b ∉ seen)) l) := by
        rw [List.filter_filter]
        apply List.filter_congr
        intro b _
        by_cases h1 : b ∈ seen <;> by_cases h2 : b = f <;> simp [h1, h2]
      simp only [fdAcc, if_neg hf, ih, hfil, firstDedup, hcomp]
      simp

theorem fdAcc_append (l1 l2 : List (Finset ℕ)) : ∀ seen,
    fdAcc seen (l1 ++ l2) = fdAcc (fdAcc seen l1) l2 := by
  induction l1 with
  | nil => intro seen; simp [fdAcc]
  | cons f l ih =>
    intro seen
    by_cases hf : f ∈ seen <;> simp [fdAcc, hf, ih]

theorem mem_firstDedup_aux : ∀ (n : ℕ) (l : List (Finset ℕ)), l.length ≤ n →
    ∀ x, (x ∈ firstDedup l ↔ x ∈ l)
  | _, [], _, x => by simp [firstDedup]
  | 0, a :: l, h, x => by simp at h
  | n + 1, a :: l, h, x => by
    rw [firstDedup, List.mem_cons]
    have hlen : (l.filter fun b => decide (b ≠ a)).length ≤ n :=
      le_trans (List.length_filter_le _ _) (Nat.succ_le_succ_iff.1 h)
    rw [mem_firstDedup_aux n _ hlen x]
    by_cases hxa : x = a
    · simp [hxa]
    · simp [hxa, List.mem_filter]

theorem mem_firstDedup (l : List (Finset ℕ)) (x : Finset ℕ) :
    x ∈ firstDedup l ↔ x ∈ l :=
  mem_firstDedup_aux l.length l le_rfl x

theorem nodup_firstDedup_aux : ∀ (n : ℕ) (l : List (Finset ℕ)), l.length ≤ n →
    (firstDedup l).Nodup
  | _, [], _ => by simp [firstDedup]
  | 0, a :: l, h => by simp at h
  | n + 1, a :: l, h => by
    rw [firstDedup]
    have hlen : (l.filter fun b => decide (b ≠ a)).length ≤ n :=
      le_trans (List.length_filter_le _ _) (Nat.succ_le_succ_iff.1 h)
    refine List.Nodup.cons ?_ (nodup_firstDedup_aux n _ hlen)
    intro ha
    have := (mem_firstDedup _ _).1 ha
    simp [List.mem_filter] at this

theorem nodup_firstDedup (l : List (Finset ℕ)) : (firstDedup l).Nodup :=
  nodup_firstDedup_aux l.length l le_rfl

theorem processFaces_spec (fs : List (List ℕ)) : ∀ st j,
    (processFaces st fs j).1.seen = fdAcc st.seen (fs.map List.toFinset) ∧
    (processFaces st fs j).1.rows = st.rows ∧
    (∀ t, (processFaces st fs j).2 = entriesSpec ((processFaces st fs j).1.seen ++ t) fs j) ∧
    (List.Forall₂ (fun rep key => rep.toFinset = key) st.simplices st.seen →
      List.Forall₂ (fun rep key => rep.toFinset = key)
        (processFaces st fs j).1.simplices (processFaces st fs j).1.seen) := by
  induction fs with
  | nil =>
    intro st j
    exact ⟨rfl, rfl, fun t => rfl, fun h => h⟩
  | cons f fs ih =>
    intro st j
    by_cases hf : f.toFinset ∈ st.seen
    · have hrec := ih st (j + 1)
      refine ⟨?_, ?_, ?_, ?_⟩
      · simp only [processFaces, if_pos hf]
        rw [hrec.1]
        simp [fdAcc, hf]
      · simp only [processFaces, if_pos hf]
        exact hrec.2.1
      · intro t
        simp only [processFaces, if_pos hf, entriesSpec]
        have hhead : idxIn f.toFinset ((processFaces st fs (j + 1)).1.seen ++ t)
            = idxIn f.toFinset st.seen := by
          rw [hrec.1, fdAcc_eq, List.append_assoc]
          exact idxIn_append_of_mem hf _
        rw [hhead, ← hrec.2.2.1 t]
      · intro h
        simp only [processFaces, if_pos hf]
        exact hrec.2.2.2 h
    · have hrec := ih ⟨st.seen ++ [f.toFinset], st.simplices ++ [f], st.rows⟩ (j + 1)
      refine ⟨?_, ?_, ?_, ?_⟩
      · simp only [processFaces, if_neg hf]
        rw [hrec.1]
        simp [fdAcc, hf]
      · simp only [processFaces, if_neg hf]
        exact hrec.2.1
      · intro t
        simp only [processFaces, if_neg hf, entriesSpec]
        have hform := hrec.1.trans (fdAcc_eq _ _)
        have hhead : idxIn f.toFinset
            ((processFaces ⟨st.seen ++ [f.toFinset], st.simplices ++ [f], st.rows⟩ fs (j + 1)).1.seen ++ t)
            = st.seen.length := by
          rw [hform]
          have : (st.seen ++ [f.toFinset]) ++ firstDedup
                (List.filter (fun b => decide (b ∉ st.seen ++ [f.toFinset])) (fs.map List.toFinset)) ++ t
              = st.seen ++ f.toFinset ::
                (firstDedup (List.filter (fun b => decide (b ∉ st.seen ++ [f.toFinset])) (fs.map List.toFinset)) ++ t) := by
            simp
          rw [this]
          exact idxIn_append_new hf _
        rw [hhead, ← hrec.2.2.1 t]
      · intro h
        simp only [processFaces, if_neg hf]
        refine hrec.2.2.2 ?_
        exact List.rel_append h (List.Forall₂.cons rfl List.Forall₂.nil)


theorem foldl_spec (old : List (List ℕ)) : ∀ st,
    (old.foldl processSimplex st).seen = fdAcc st.seen (allIds old) ∧
    (∀ t, (old.foldl processSimplex st).rows
        = st.rows ++ old.map fun s => entriesSpec ((old.foldl processSimplex st).seen ++ t) (faces s) 0) ∧
    (List.Forall₂ (fun rep key => rep.toFinset = key) st.simplices st.seen →
      List.Forall₂ (fun rep key => rep.toFinset = key)
        (old.foldl processSimplex st).simplices (old.foldl processSimplex st).seen) := by
  induction old with
  | nil =>
    intro st
    refine ⟨by simp [allIds, fdAcc], fun t => by simp, fun h => h⟩
  | cons s old ih =>
    intro st
    have hpf := processFaces_spec (faces s) st 0
    have hst1seen : (processSimplex st s).seen = fdAcc st.seen (faceIds s) := by
      simp only [processSimplex]
      exact hpf.1
    have hrec := ih (processSimplex st s)
    refine ⟨?_, ?_, ?_⟩
    · rw [List.foldl_cons, hrec.1, hst1seen]
      rw [← fdAcc_append]
      simp [allIds]
    · intro t
      rw [List.foldl_cons, hrec.2.1 t]
      have hrows1 : (processSimplex st s).rows
          = st.rows ++ [(processFaces st (faces s) 0).2] := by
        simp only [processSimplex]
        rw [hpf.2.1]
      rw [hrows1]
      -- the final seen extends this step's seen
      have hext : ∃ r, (List.foldl processSimplex (processSimplex st s) old).seen
          = (processFaces st (faces s) 0).1.seen ++ r := by
        refine ⟨firstDedup (List.filter (fun b => decide (b ∉ (processSimplex st s).seen)) (allIds old)), ?_⟩
        rw [hrec.1, fdAcc_eq]
        simp only [processSimplex]
      obtain ⟨r, hr⟩ := hext
      have hrow : (processFaces st (faces s) 0).2
          = entriesSpec ((List.foldl processSimplex (processSimplex st s) old).seen ++ t) (faces s) 0 := by
        rw [hr, List.append_assoc]
        exact hpf.2.2.1 (r ++ t)
      rw [List.map_cons, ← hrow]
      simp
    · intro h
      refine hrec.2.2 ?_
      simp only [processSimplex]
      exact hpf.2.2.2 h

theorem computeExterior_spec (old : List (List ℕ)) :
    (computeExterior old).seen = firstDedup (allIds old) ∧
    (computeExterior old).seen.Nodup ∧
    List.Forall₂ (fun rep key => rep.toFinset = key)
      (computeExterior old).simplices (computeExterior old).seen ∧
    (computeExterior old).rows
      = old.map fun s => entriesSpec (computeExterior old).seen (faces s) 0 := by
  have h := foldl_spec old ⟨[], [], []⟩
  have hseen : (computeExterior old).seen = firstDedup (allIds old) := by
    show (old.foldl processSimplex ⟨[], [], []⟩).seen = _
    rw [h.1, fdAcc_eq]
    simp
  refine ⟨hseen, hseen ▸ nodup_firstDedup _, h.2.2 List.Forall₂.nil, ?_⟩
  have := h.2.1 []
  simpa using this

theorem getDMem {α : Type} {l : List α} {n : ℕ} (h : n < l.length) (d : α) :
    l.getD n d ∈ l := by
  rw [List.getD_eq_getElem l d h]
  exact List.getElem_mem h

theorem idxIn_lt_length {f : Finset ℕ} : ∀ {l : List (Finset ℕ)}, f ∈ l →
    idxIn f l < l.length := by
  intro l h
  induction l with
  | nil => cases h
  | cons g t ih =>
    by_cases hfg : f = g
    · simp [idxIn, hfg]
    · have hm : f ∈ t := by
        rcases List.mem_cons.1 h with h1 | h1
        · exact absurd h1 hfg
        · exact h1
      simpa [idxIn, hfg] using ih hm

theorem getD_idxIn {f : Finset ℕ} : ∀ {l : List (Finset ℕ)}, f ∈ l →
    l.getD (idxIn f l) ∅ = f := by
  intro l h
  induction l with
  | nil => cases h
  | cons g t ih =>
    by_cases hfg : f = g
    · simp [idxIn, hfg]
    · have hm : f ∈ t := by
        rcases List.mem_cons.1 h with h1 | h1
        · exact absurd h1 hfg
        · exact h1
      simpa [idxIn, hfg] using ih hm

theorem idxIn_getD : ∀ {l : List (Finset ℕ)}, l.Nodup → ∀ {c : ℕ}, c < l.length →
    idxIn (l.getD c ∅) l = c := by
  intro l
  induction l with
  | nil => intro _ c hc; cases hc
  | cons g t ih =>
    intro hnd c hc
    match c with
    | 0 => simp [idxIn]
    | c + 1 =>
      have hct : c < t.length := by simpa using hc
      have hx : t.getD c ∅ ∈ t := getDMem hct ∅
      have hne : t.getD c ∅ ≠ g := by
        intro e
        exact (List.nodup_cons.1 hnd).1 (e ▸ hx)
      simp only [List.getD_cons_succ, idxIn, if_neg hne]
      rw [ih (List.nodup_cons.1 hnd).2 hct]

/-- The `(column, value)` pairs produced for a row all carry value
`(-1)^j`, so their absolute contribution to column `c` counts exactly the
faces whose identity is the one stored at position `c`. -/
theorem entriesSpec_absSum {S : List (Finset ℕ)} (hnd : S.Nodup) {c : ℕ}
    (hc : c < S.length) : ∀ (fs : List (List ℕ)) (j : ℕ), (∀ f ∈ fs, f.toFinset ∈ S) →
    (((entriesSpec S fs j).filter fun p => p.1 = c).map fun p => p.2.natAbs).sum
      = (fs.filter fun f => decide (f.toFinset = S.getD c ∅)).length := by
  intro fs
  induction fs with
  | nil => intro j _; simp [entriesSpec]
  | cons f fs ih =>
    intro j hmem
    have hfS : f.toFinset ∈ S := hmem f (by simp)
    have hiff : (idxIn f.toFinset S = c) ↔ (f.toFinset = S.getD c ∅) := by
      constructor
      · intro h
        rw [← h, getD_idxIn hfS]
      · intro h
        rw [h, idxIn_getD hnd hc]
    have habs : ((-1 : ℤ) ^ j).natAbs = 1 := by
      rw [Int.natAbs_pow]
      simp
    by_cases hidx : idxIn f.toFinset S = c
    · have hface : f.toFinset = S.getD c ∅ := hiff.1 hidx
      simp only [entriesSpec, List.filter_cons, List.map_cons]
      rw [if_pos (by simpa using hidx), if_pos (by simpa using hface)]
      simp only [List.map_cons, List.sum_cons, List.length_cons, habs]
      rw [ih (j + 1) fun g hg => hmem g (by simp [hg])]
      omega
    · have hface : ¬ f.toFinset = S.getD c ∅ := fun h => hidx (hiff.2 h)
      simp only [entriesSpec, List.filter_cons]
      rw [if_neg (by simpa using hidx), if_neg (by simpa using hface)]
      exact ih (j + 1) fun g hg => hmem g (by simp [hg])

/-- Every face identity of a member simplex is among the deduplicated
identities of `computeExterior`. -/
theorem toFinset_mem_seen {old : List (List ℕ)} {s : List ℕ} (hs : s ∈ old)
    {f : List ℕ} (hf : f ∈ faces s) : f.toFinset ∈ (computeExterior old).seen := by
  rw [(computeExterior_spec old).1, mem_firstDedup]
  exact List.mem_flatMap.2 ⟨s, hs, List.mem_map_of_mem _ hf⟩

/-- The absolute column sums of the assembled matrix count, over all
higher simplices, the faces whose identity is column `c`'s identity. -/
theorem colAbsSum_eq (old : List (List ℕ)) {c : ℕ}
    (hc : c < (computeExterior old).seen.length) :
    colAbsSum (computeExterior old) c = incidenceCount old (computeExterior old).seen c := by
  have hspec := computeExterior_spec old
  rw [colAbsSum, hspec.2.2.2, List.map_map, incidenceCount]
  congr 1
  apply List.map_congr_left
  intro s hs
  exact entriesSpec_absSum hspec.2.1 hc (faces s) 0 fun f hf => toFinset_mem_seen hs hf

/-- The absolute values stored in row `r` at column `c` count the faces of
the `r`-th higher simplex whose identity is column `c`'s identity. -/
theorem rowAbsAt_eq (old : List (List ℕ)) {r : ℕ} (hr : r < old.length) {c : ℕ}
    (hc : c < (computeExterior old).seen.length) :
    rowAbsAt (computeExterior old) r c
      = ((faces (old.getD r [])).filter fun f =>
          decide (f.toFinset = (computeExterior old).seen.getD c ∅)).length := by
  have hspec := computeExterior_spec old
  have hrow : (computeExterior old).rows.getD r []
      = entriesSpec (computeExterior old).seen (faces (old.getD r [])) 0 := by
    rw [hspec.2.2.2]
    rw [List.getD_eq_getElem?_getD, List.getD_eq_getElem?_getD,
      List.getElem?_map, List.getElem?_eq_getElem hr]
    simp
  rw [rowAbsAt, hrow]
  exact entriesSpec_absSum hspec.2.1 hc _ 0
    fun f hf => toFinset_mem_seen (getDMem hr []) hf

theorem natSum_ne_zero {l : List ℕ} : l.sum ≠ 0 ↔ ∃ x ∈ l, x ≠ 0 := by
  induction l with
  | nil => simp
  | cons a t ih =>
    simp only [List.sum_cons, List.mem_cons]
    constructor
    · intro h
      by_cases ha : a = 0
      · obtain ⟨x, hx, hx0⟩ := ih.1 (by omega)
        exact ⟨x, Or.inr hx, hx0⟩
      · exact ⟨a, Or.inl rfl, ha⟩
    · rintro ⟨x, hx | hx, hx0⟩
      · subst hx; omega
      · have := List.single_le_sum (fun y _ => Nat.zero_le y) x hx
        omega

/-- Every index in a skeleton's `boundary` is below its `num_simplices`. -/
theorem Bk_lt (top : List (List ℕ)) : ∀ (k : ℕ) (i : ℕ), i ∈ Bk top k → i < nSimp top k
  | 0, i, h => by simp [Bk] at h
  | 1, i, h => by
    rw [Bk, List.mem_filter] at h
    exact List.mem_range.1 h.1
  | k + 2, i, h => by
    rw [Bk] at h
    by_cases hb : Bk top (k + 1) = []
    · rw [if_pos hb] at h
      cases h
    · rw [if_neg hb, List.mem_filter] at h
      exact List.mem_range.1 h.1

/-- Column count of a skeleton's matrix = `num_simplices` one level down. -/
theorem seen_length (top : List (List ℕ)) (k : ℕ) :
    (Ext top k).seen.length = nSimp top (k + 1) := by
  have h := (computeExterior_spec (Sk top k)).2.2.1.length_eq
  show (computeExterior (Sk top k)).seen.length
      = (computeExterior (Sk top k)).simplices.length
  exact h.symm

/-- C2: for every dimension (codimension `k` here), the index lists
`boundary` and `interior` are disjoint and together are exactly
`{0, …, num_simplices - 1}`. -/
theorem boundary_interior_partition (top : List (List ℕ)) (k i : ℕ) :
    ((i ∈ Bk top k ∨ i ∈ Ik top k) ↔ i < nSimp top k) ∧
    ¬(i ∈ Bk top k ∧ i ∈ Ik top k) := by
  constructor
  · constructor
    · rintro (h | h)
      · exact Bk_lt top k i h
      · exact List.mem_range.1 (List.mem_filter.1 h).1
    · intro h
      by_cases hi : i ∈ Bk top k
      · exact Or.inl hi
      · refine Or.inr (List.mem_filter.2 ⟨List.mem_range.2 h, ?_⟩)
        simpa using hi
  · rintro ⟨h1, h2⟩
    have h3 := (List.mem_filter.1 h2).2
    simp only [decide_eq_true_eq] at h3
    exact h3 h1

/-- Witness for C2 at the single-triangle complex, codimension 1, index 0. -/
theorem boundary_interior_partition_witness :
    ((0 ∈ Bk [[0, 1, 2]] 1 ∨ 0 ∈ Ik [[0, 1, 2]] 1) ↔ 0 < nSimp [[0, 1, 2]] 1) ∧
    ¬(0 ∈ Bk [[0, 1, 2]] 1 ∧ 0 ∈ Ik [[0, 1, 2]] 1) :=
  boundary_interior_partition [[0, 1, 2]] 1 0

/-- C4: the codimension-1 boundary is the set of columns with an odd
absolute column sum, that sum counts the incidences with top simplices;
at lower dimensions an index is on the boundary exactly when its identity
is a face of some boundary simplex one dimension higher, and an empty
higher boundary forces an empty boundary. -/
theorem boundary_classification (top : List (List ℕ)) :
    (∀ i, i ∈ Bk top 1 ↔ i < nSimp top 1 ∧ Odd (colAbsSum (Ext top 0) i)) ∧
    (∀ i, i < nSimp top 1 →
      colAbsSum (Ext top 0) i = incidenceCount top (Ext top 0).seen i) ∧
    (∀ k i, i ∈ Bk top (k + 2) ↔ i < nSimp top (k + 2) ∧
      ∃ r ∈ Bk top (k + 1), ∃ f ∈ faces ((Sk top (k + 1)).getD r []),
        f.toFinset = (Ext top (k + 1)).seen.getD i ∅) ∧
    (∀ k, Bk top (k + 1) = [] → Bk top (k + 2) = []) := by
  refine ⟨?_, ?_, ?_, ?_⟩
  · intro i
    rw [Bk, List.mem_filter, List.mem_range, decide_eq_true_eq, Nat.odd_iff]
  · intro i hi
    have hc : i < (computeExterior (Sk top 0)).seen.length := by
      have := seen_length top 0
      rw [show Ext top 0 = computeExterior (Sk top 0) from rfl] at this
      simp only [Nat.zero_add] at this
      omega
    exact colAbsSum_eq (Sk top 0) hc
  · intro k i
    rw [Bk]
    by_cases hb : Bk top (k + 1) = []
    · rw [if_pos hb, hb]
      simp
    · rw [if_neg hb, List.mem_filter, List.mem_range, decide_eq_true_eq]
      constructor
      · rintro ⟨hi, hsum⟩
        refine ⟨hi, ?_⟩
        have hcol : i < (Ext top (k + 1)).seen.length := by
          rw [seen_length]; exact hi
        rw [boundaryColSum, natSum_ne_zero] at hsum
        obtain ⟨x, hx, hx0⟩ := hsum
        obtain ⟨r, hr, rfl⟩ := List.mem_map.1 hx
        have hrlt : r < (Sk top (k + 1)).length := Bk_lt top (k + 1) r hr
        rw [show Ext top (k + 1) = computeExterior (Sk top (k + 1)) from rfl,
          rowAbsAt_eq (Sk top (k + 1)) hrlt hcol] at hx0
        have hne : ¬ ((faces ((Sk top (k + 1)).getD r [])).filter fun f =>
            decide (f.toFinset = (computeExterior (Sk top (k + 1))).seen.getD i ∅)) = [] := by
          intro e
          rw [e] at hx0
          simp at hx0
        rw [List.filter_eq_nil_iff] at hne
        push_neg at hne
        obtain ⟨f, hf, hfid⟩ := hne
        exact ⟨r, hr, f, hf, by simpa using hfid⟩
      · rintro ⟨hi, r, hr, f, hf, hfid⟩
        refine ⟨hi, ?_⟩
        have hcol : i < (Ext top (k + 1)).seen.length := by
          rw [seen_length]; exact hi
        have hrlt : r < (Sk top (k + 1)).length := Bk_lt top (k + 1) r hr
        rw [boundaryColSum, natSum_ne_zero]
        refine ⟨rowAbsAt (Ext top (k + 1)) r i, List.mem_map_of_mem _ hr, ?_⟩
        rw [show Ext top (k + 1) = computeExterior (Sk top (k + 1)) from rfl,
          rowAbsAt_eq (Sk top (k + 1)) hrlt hcol]
        intro e
        rw [List.length_eq_zero, List.filter_eq_nil_iff] at e
        exact e f hf (by simpa using hfid)
  · intro k h
    rw [Bk, if_pos h]

/-- Witness for C4 at the single-triangle complex: edge 0 is a boundary
edge (odd incidence count 1), and vertex 0 is in the codimension-2
boundary because its identity is a face of boundary edge 0. -/
theorem boundary_classification_witness :
    (0 ∈ Bk [[0, 1, 2]] 1 ↔ 0 < nSimp [[0, 1, 2]] 1 ∧ Odd (colAbsSum (Ext [[0, 1, 2]] 0) 0)) ∧
    colAbsSum (Ext [[0, 1, 2]] 0) 0 = incidenceCount [[0, 1, 2]] (Ext [[0, 1, 2]] 0).seen 0 ∧
    (0 ∈ Bk [[0, 1, 2]] 2 ↔ 0 < nSimp [[0, 1, 2]] 2 ∧
      ∃ r ∈ Bk [[0, 1, 2]] 1, ∃ f ∈ faces ((Sk [[0, 1, 2]] 1).getD r []),
        f.toFinset = (Ext [[0, 1, 2]] 1).seen.getD 0 ∅) :=
  ⟨(boundary_classification [[0, 1, 2]]).1 0,
   (boundary_classification [[0, 1, 2]]).2.1 0 (by decide),
   (boundary_classification [[0, 1, 2]]).2.2.1 0 0⟩

/-- C3: `compute_exterior` enumerates each higher simplex's faces by
deleting one vertex at a time in position order; a face identity gets a
fresh dense column index the first time it is seen (the identities form
the duplicate-free first-seen list, and the stored representative lists
match them) and the same index is reused on every later occurrence, so a
shared face resolves to a single column; the matrix has one row per
higher simplex whose entry for deletion position `j` is `(-1)^j`. -/
theorem compute_exterior_enumeration (old : List (List ℕ)) :
    (computeExterior old).seen = firstDedup (allIds old) ∧
    (computeExterior old).seen.Nodup ∧
    List.Forall₂ (fun rep key => rep.toFinset = key)
      (computeExterior old).simplices (computeExterior old).seen ∧
    (computeExterior old).rows
      = old.map fun s => entriesSpec (computeExterior old).seen (faces s) 0 :=
  computeExterior_spec old

/-- C1 fails on the code: for the complex
`SimplicialComplex([[0,1,2],[4,5,6]], stitches={4:2, 5:1, 6:3})`
(`complex_dimension = 2`), the composition
`exterior_derivative(1).dot(exterior_derivative(0))` has entry `2` at
row 1, column 0 — the chain-complex identity is violated because the
shared stitched edge `{1,2}` enters the two triangles with opposite
vertex orders while its sign pattern is taken from the first-seen
representative only. -/
theorem dd_product_nonzero_on_stitched_pair :
    pairTop = [[0, 1, 2], [2, 1, 3]] ∧
    matProdEntry (Ext pairTop 0) (Ext pairTop 1) 1 0 = 2 := by decide

/-- C6 as stated is false: `simplices.sort()` on the input `[[1, 0]]`
returns `[[0, 1]]` (numpy sorts along the last axis), while sorting the
rows lexicographically without touching the vertex order inside a row
would return `[[1, 0]]`. -/
theorem np_sort_ne_lex_row_sort :
    npSort [[1, 0]] = [[0, 1]] ∧ specLexRowSort [[1, 0]] = [[1, 0]] ∧
    npSort [[1, 0]] ≠ specLexRowSort [[1, 0]] := by decide

/-- C6 (amended): the constructor's `simplices.sort()` sorts the vertex
indices within each row in ascending order and leaves the row order
unchanged (row `r` of the output is a sorted permutation of row `r` of
the input). -/
theorem np_sort_sorts_within_rows (l : List (List ℕ)) :
    List.Forall₂ (fun row out => out.Perm row ∧ out.Sorted (· ≤ ·)) l (npSort l) := by
  unfold npSort
  induction l with
  | nil => exact List.Forall₂.nil
  | cons a t ih =>
    exact List.Forall₂.cons
      ⟨List.perm_insertionSort _ a, List.sorted_insertionSort _ a⟩ ih

/-- C9: accessing an attribute name that is not one of the recognized
lazily computable fields raises `AttributeError(attr + " not found")`
immediately, on both `Skeleton` and `SimplicialComplex`. -/
theorem unknown_attribute_error :
    (∀ a, a ∉ skeletonFields → skeletonGetattr a = Except.error (a ++ " not found")) ∧
    (∀ a, a ≠ "barycentric_gradients" → complexGetattr a = Except.error (a ++ " not found")) := by
  constructor
  · intro a ha
    simp only [skeletonFields, List.mem_cons, List.not_mem_nil, or_false, not_or] at ha
    obtain ⟨h1, h2, h3, h4, h5, h6, h7, h8, h9, h10, h11, h12, h13, h14, h15, h16, h17, h18⟩ := ha
    simp [skeletonGetattr, h1, h2, h3, h4, h5, h6, h7, h8, h9, h10, h11, h12, h13,
      h14, h15, h16, h17, h18]
  · intro a ha
    simp [complexGetattr, ha]

/-- Witness for C9: the unrecognized name `"foo"` errors on both classes. -/
theorem unknown_attribute_error_witness :
    skeletonGetattr "foo" = Except.error ("foo" ++ " not found") ∧
    complexGetattr "foo" = Except.error ("foo" ++ " not found") :=
  ⟨unknown_attribute_error.1 "foo" (by decide),
   unknown_attribute_error.2 "foo" (by decide)⟩

/-- C10: immediately after construction the top-dimensional skeleton has
empty `boundary`, `interior` equal to all of `{0, …, num_simplices - 1}`,
and a `1 × num_simplices` zero `exterior_derivative`, for every input
mesh and stitching map. -/
theorem top_skeleton_after_construction (simplices : List (List ℕ)) (stitches : List (ℕ × ℕ)) :
    topBoundary = [] ∧
    topInterior simplices = List.range (topNum simplices) ∧
    (∀ i, i ∈ topInterior simplices ↔ i < topNum simplices) ∧
    topNum simplices = (constructTop simplices stitches).length ∧
    topEdRows.length = 1 ∧
    (∀ r c, entryAt topEdRows r c = 0) := by
  refine ⟨rfl, rfl, ?_, ?_, rfl, ?_⟩
  · intro i
    simp [topInterior, topNum]
  · simp [topNum, constructTop, npSort]
  · intro r c
    match r with
    | 0 => simp [entryAt, topEdRows]
    | r + 1 => simp [entryAt, topEdRows]

/-- C8: for every top simplex's points and metric, the per-vertex rows of
`compute_barycentric_gradients` sum to the zero vector — the stacked
first row is the negated column sum of the gradient block. -/
theorem barycentric_gradients_sum_zero {n e : ℕ} (pts : Fin (n + 1) → Fin e → ℂ)
    (M : Matrix (Fin e) (Fin e) ℂ) (j : Fin e) :
    ∑ i, barycentricGradients pts M i j = 0 := by
  unfold barycentricGradients
  rw [Fin.sum_univ_succ]
  simp only [Matrix.of_apply, Fin.cases_zero, Fin.cases_succ]
  exact neg_add_cancel _

theorem faces_length {s f : List ℕ} (hf : f ∈ faces s) : f.length + 1 = s.length := by
  obtain ⟨j, hj, rfl⟩ : ∃ j, j < s.length ∧ s.take j ++ s.drop (j + 1) = f := by
    simpa [faces, List.mem_map, List.mem_range] using hf
  simp only [List.length_append, List.length_take, List.length_drop]
  omega

theorem mem_delSeqs_cons {s : List ℕ} {n : ℕ} {path : List (List ℕ)}
    (h : path ∈ delSeqs s n) : ∃ t, path = s :: t := by
  match n with
  | 0 =>
    rw [delSeqs, List.mem_singleton] at h
    exact ⟨[], h⟩
  | n + 1 =>
    rw [delSeqs] at h
    obtain ⟨f, _, hf⟩ := List.mem_flatMap.1 h
    obtain ⟨q, _, rfl⟩ := List.mem_map.1 hf
    exact ⟨q, rfl⟩

theorem getLastD_of_ne_nil {α : Type} : ∀ {l : List α}, l ≠ [] → ∀ (a b : α),
    l.getLastD a = l.getLastD b := by
  intro l h a b
  match l with
  | [] => exact absurd rfl h
  | x :: t => rfl

theorem flatMap_congr {α β : Type} {l : List α} {f g : α → List β}
    (h : ∀ a ∈ l, f a = g a) : l.flatMap f = l.flatMap g := by
  induction l with
  | nil => rfl
  | cons a t ih =>
    simp only [List.flatMap_cons]
    rw [h a (by simp), ih fun b hb => h b (by simp [hb])]

theorem attach_flatMap {α β : Type} (l : List α) (g : α → List β) :
    (l.attach.flatMap fun x => g x.1) = l.flatMap g := by
  induction l with
  | nil => rfl
  | cons a t ih =>
    simp only [List.attach_cons, List.flatMap_cons, List.flatMap_map]
    rw [← ih]

theorem computeDualCells_paths_aux {P : Type} (cc : List ℕ → P) (sIdx : List ℕ → ℕ) :
    ∀ (N : ℕ) (s : List ℕ), s.length ≤ N → ∀ p, p < s.length →
    computeDualCells cc sIdx s p
      = (delSeqs s (s.length - 1 - p)).map
          fun path => ((path.map cc).reverse, sIdx (path.getLastD []))
  | N, s, hsN, p, hp => by
    rw [computeDualCells]
    by_cases hbase : p = s.length - 1
    · rw [if_pos hbase]
      have h0 : s.length - 1 - p = 0 := by omega
      rw [h0, delSeqs]
      simp
    · rw [if_neg hbase]
      have hlt : p < s.length - 1 := by omega
      have hlen2 : 2 ≤ s.length := by omega
      match N, hsN with
      | 0, hsN => omega
      | N + 1, hsN =>
        have hstep : s.length - 1 - p = (s.length - 1 - 1 - p) + 1 := by omega
        rw [hstep, delSeqs, List.map_flatMap,
          attach_flatMap (faces s) fun a =>
            List.map (fun pr : List P × ℕ => (pr.1 ++ [cc s], pr.2))
              (computeDualCells cc sIdx a p)]
        apply flatMap_congr
        intro f hf
        have hflen : f.length + 1 = s.length := faces_length hf
        have hrec := computeDualCells_paths_aux cc sIdx N f (by omega) p (by omega)
        rw [hrec]
        have hm : f.length - 1 - p = s.length - 1 - 1 - p := by omega
        rw [hm, List.map_map, List.map_map]
        apply List.map_congr_left
        intro path hpath
        obtain ⟨t, rfl⟩ := mem_delSeqs_cons hpath
        simp only [Function.comp_apply, List.map_cons, List.reverse_cons,
          List.getLastD_cons]

theorem specDualCellsPrepend_paths_aux {P : Type} (cc : List ℕ → P) (sIdx : List ℕ → ℕ) :
    ∀ (N : ℕ) (s : List ℕ), s.length ≤ N → ∀ p, p < s.length →
    specDualCellsPrepend cc sIdx s p
      = (delSeqs s (s.length - 1 - p)).map
          fun path => (path.map cc, sIdx (path.getLastD []))
  | N, s, hsN, p, hp => by
    rw [specDualCellsPrepend]
    by_cases hbase : p = s.length - 1
    · rw [if_pos hbase]
      have h0 : s.length - 1 - p = 0 := by omega
      rw [h0, delSeqs]
      simp
    · rw [if_neg hbase]
      have hlt : p < s.length - 1 := by omega
      have hlen2 : 2 ≤ s.length := by omega
      match N, hsN with
      | 0, hsN => omega
      | N + 1, hsN =>
        have hstep : s.length - 1 - p = (s.length - 1 - 1 - p) + 1 := by omega
        rw [hstep, delSeqs, List.map_flatMap,
          attach_flatMap (faces s) fun a =>
            List.map (fun pr : List P × ℕ => (cc s :: pr.1, pr.2))
              (specDualCellsPrepend cc sIdx a p)]
        apply flatMap_congr
        intro f hf
        have hflen : f.length + 1 = s.length := faces_length hf
        have hrec := specDualCellsPrepend_paths_aux cc sIdx N f (by omega) p (by omega)
        rw [hrec]
        have hm : f.length - 1 - p = s.length - 1 - 1 - p := by omega
        rw [hm, List.map_map, List.map_map]
        apply List.map_congr_left
        intro path hpath
        obtain ⟨t, rfl⟩ := mem_delSeqs_cons hpath
        simp only [Function.comp_apply, List.map_cons, List.getLastD_cons]

/-- C7 as stated is false of the code: in the recursive case the source
runs `old_circumcenters + circumcenter`, which appends `circumcenter(s)`
at the end of each returned chain rather than prepending it.  At the
edge `[0, 1]` with `p = 0`, circumcenter function `sum` and index
function `length`, the code produces the bottom-up chains
`[1, 1], [0, 1]` while the claimed prepend recursion produces the
top-down chains `[1, 1], [1, 0]` — and the two results differ. -/
theorem compute_dual_cells_not_prepend :
    computeDualCells (fun s : List ℕ => s.sum) List.length [0, 1] 0
      = [([1, 1], 1), ([0, 1], 1)] ∧
    specDualCellsPrepend (fun s : List ℕ => s.sum) List.length [0, 1] 0
      = [([1, 1], 1), ([1, 0], 1)] ∧
    computeDualCells (fun s : List ℕ => s.sum) List.length [0, 1] 0
      ≠ specDualCellsPrepend (fun s : List ℕ => s.sum) List.length [0, 1] 0 := by
  have h1 := computeDualCells_paths_aux (fun s : List ℕ => s.sum) List.length
    2 [0, 1] (by norm_num) 0 (by norm_num)
  have h2 := specDualCellsPrepend_paths_aux (fun s : List ℕ => s.sum) List.length
    2 [0, 1] (by norm_num) 0 (by norm_num)
  have e1 : computeDualCells (fun s : List ℕ => s.sum) List.length [0, 1] 0
      = [([1, 1], 1), ([0, 1], 1)] := h1.trans (by decide)
  have e2 : specDualCellsPrepend (fun s : List ℕ => s.sum) List.length [0, 1] 0
      = [([1, 1], 1), ([1, 0], 1)] := h2.trans (by decide)
  refine ⟨e1, e2, ?_⟩
  rw [e1, e2]
  decide

/-- C7 (amended): `compute_dual_cells(s, p)` returns, for every
descending chain of one-vertex deletions from `s` down to an
arity-`(p+1)` face (faces enumerated in deletion order at each step),
the chain of circumcenters listed bottom-up — at `p == k` the singleton
`[circumcenter(s)]`, otherwise each recursive chain with
`circumcenter(s)` appended (`old_circumcenters + circumcenter`), not
prepended — tagged with the stitched index of the bottom face,
preserving each chain's tagged index through the recursion. -/
theorem compute_dual_cells_closed_form {P : Type} (cc : List ℕ → P) (sIdx : List ℕ → ℕ)
    (s : List ℕ) (p : ℕ) (hp : p < s.length) :
    computeDualCells cc sIdx s p
      = (delSeqs s (s.length - 1 - p)).map
          fun path => ((path.map cc).reverse, sIdx (path.getLastD [])) :=
  computeDualCells_paths_aux cc sIdx s.length s le_rfl p hp

/-- Witness for C7 at the triangle `[0, 1, 2]` with `p = 0` and concrete
collaborator functions. -/
theorem compute_dual_cells_closed_form_witness :
    computeDualCells (fun s : List ℕ => s.sum) List.length [0, 1, 2] 0
      = (delSeqs [0, 1, 2] ([0, 1, 2].length - 1 - 0)).map
          fun path => ((path.map fun s : List ℕ => s.sum).reverse,
            List.length (path.getLastD [])) :=
  compute_dual_cells_closed_form (fun s : List ℕ => s.sum) List.length [0, 1, 2] 0
    (by decide)

theorem triVolSq_edge12 : primalVolSq 1 2 [[1, 0], [0, 1]] 1 = 2 := by
  simp only [primalVolSq, Matrix.mul_one]
  rw [Matrix.det_fin_one, Matrix.mul_apply]
  simp [Fin.sum_univ_two, Matrix.of_apply, Matrix.transpose_apply, List.getD]
  norm_num

theorem triVolSq_edge02 : primalVolSq 1 2 [[0, 0], [0, 1]] 1 = 1 := by
  simp only [primalVolSq, Matrix.mul_one]
  rw [Matrix.det_fin_one, Matrix.mul_apply]
  simp [Fin.sum_univ_two, Matrix.of_apply, Matrix.transpose_apply, List.getD]

theorem triVolSq_edge01 : primalVolSq 1 2 [[0, 0], [1, 0]] 1 = 1 := by
  simp only [primalVolSq, Matrix.mul_one]
  rw [Matrix.det_fin_one, Matrix.mul_apply]
  simp [Fin.sum_univ_two, Matrix.of_apply, Matrix.transpose_apply, List.getD]

theorem triVolSq_top : primalVolSq 2 2 [[0, 0], [1, 0], [0, 1]] 1 = 1 := by
  simp only [primalVolSq, Matrix.mul_one]
  rw [Matrix.det_fin_two]
  simp only [Matrix.mul_apply, Fin.sum_univ_two, Matrix.of_apply, Matrix.transpose_apply]
  simp [List.getD]

theorem triVerts_map12 : List.map triVerts [1, 2] = [[1, 0], [0, 1]] := rfl

theorem triVerts_map02 : List.map triVerts [0, 2] = [[0, 0], [0, 1]] := rfl

theorem triVerts_map01 : List.map triVerts [0, 1] = [[0, 0], [1, 0]] := rfl

theorem triVerts_mapTop : List.map triVerts [0, 1, 2] = [[0, 0], [1, 0], [0, 1]] := rfl

theorem triVol_edge12 : primalVolume 1 2 (List.map triVerts [1, 2]) 1 = Real.sqrt 2 := by
  rw [primalVolume, triVerts_map12, triVolSq_edge12]

theorem triVol_edge02 : primalVolume 1 2 (List.map triVerts [0, 2]) 1 = 1 := by
  rw [primalVolume, triVerts_map02, triVolSq_edge02, Real.sqrt_one]

theorem triVol_edge01 : primalVolume 1 2 (List.map triVerts [0, 1]) 1 = 1 := by
  rw [primalVolume, triVerts_map01, triVolSq_edge01, Real.sqrt_one]

theorem triVol_top : primalVolume 2 2 (List.map triVerts [0, 1, 2]) 1 = 1 := by
  rw [primalVolume, triVerts_mapTop, triVolSq_top, Real.sqrt_one]

theorem triPV1_eval : triPV1 0 = Real.sqrt 2 ∧ triPV1 1 = 1 ∧ triPV1 2 = 1 := by
  have hk12 : idxIn (stitchSimplex [] [1, 2]).toFinset triE1.seen = 0 := by decide
  have hk02 : idxIn (stitchSimplex [] [0, 2]).toFinset triE1.seen = 1 := by decide
  have hk01 : idxIn (stitchSimplex [] [0, 1]).toFinset triE1.seen = 2 := by decide
  have harr : ∀ i, triPV1 i
      = Function.update (Function.update (Function.update
          (fun _ => (0 : ℝ)) 0 (Real.sqrt 2)) 1 1) 2 1 i / 1 := by
    intro i
    simp only [triPV1, primalVolumesArr, List.foldl_cons, List.foldl_nil,
      hk12, hk02, hk01, triVol_edge12, triVol_edge02, triVol_edge01]
    norm_num [Nat.factorial]
  refine ⟨?_, ?_, ?_⟩ <;> rw [harr] <;> norm_num [Function.update]

theorem triPV2_eval : triPV2 0 = 1 / 2 := by
  have hk : idxIn (stitchSimplex [] [0, 1, 2]).toFinset
      ((constructTop [[0, 1, 2]] []).map List.toFinset) = 0 := by decide
  simp only [triPV2, primalVolumesArr, List.foldl_cons, List.foldl_nil,
    hk, triVol_top]
  norm_num [Nat.factorial, Function.update]

/-- C5: the complex built from the single 2-simplex `(0,0), (1,0), (0,1)`
with the Euclidean metric and no stitching has one top simplex of primal
volume `1/2`; three edges of primal volumes `sqrt 2, 1, 1` (a permutation
of `1, 1, sqrt 2`); three vertices of primal volume `1`; and
`exterior_derivative` at dimension 1 is the `1 × 3` matrix with entries
`+1, -1, +1` in deletion order. -/
theorem triangle_scenario :
    constructTop [[0, 1, 2]] [] = [[0, 1, 2]] ∧
    topNum [[0, 1, 2]] = 1 ∧
    triPV2 0 = 1 / 2 ∧
    triE1.seen.length = 3 ∧
    triPV1 0 = Real.sqrt 2 ∧ triPV1 1 = 1 ∧ triPV1 2 = 1 ∧
    [triPV1 0, triPV1 1, triPV1 2].Perm [1, 1, Real.sqrt 2] ∧
    triE0.seen.length = 3 ∧
    (∀ i, primalVolumesDim0 triE0.seen.length i = 1) ∧
    triE1.rows = [[(0, 1), (1, -1), (2, 1)]] := by
  obtain ⟨h0, h1, h2⟩ := triPV1_eval
  refine ⟨by decide, by decide, triPV2_eval, by decide, h0, h1, h2, ?_, by decide,
    fun i => rfl, by decide⟩
  rw [h0, h1, h2]
  exact (List.Perm.swap 1 (Real.sqrt 2) [1]).trans
    (List.Perm.cons 1 (List.Perm.swap 1 (Real.sqrt 2) []))

end Kahler
